import Mathlib

/-!
Verification development for the lexical analyser in `src/ppl/lexer.py`.

The Python module is embedded shallowly:

* Python strings are modelled as `List Char` (a Python `str` is a sequence
  of Unicode code points).
* `Symbol` is a subclass of `int`, so symbol values are modelled as `Int`.
* Fallible Python functions return `Except PyError _`; the generator
  `get_all_tokens` is modelled as a function returning the list of tokens
  it yields together with the error, if any, that terminates it.
* Machine-independent Unicode facts used by the source (`str.isalpha`,
  `str.upper`, the regex class `\s`) are modelled explicitly; the scope of
  each model is stated in its doc comment.
-/

/-- Python exceptions raised by the helper functions of the lexer module:
`ValueError` (raised by `Symbol.from_letter` and by
`Operator.from_input_form`) and `RuntimeError` (raised on the
internal-invariant branches of `get_all_tokens`). -/
inductive PyError
  | valueError (msg : String)
  | runtimeError
deriving DecidableEq

/-- Outcome that terminates the token generator abnormally: either the
user-facing `LexicalAnalysisFailedError` (whose message carries the 1-based
column `mat.start() + 1` and the offending character), or an uncaught
Python exception escaping from a branch of the `match` statement. -/
inductive ScanError
  | lexicalAnalysisFailed (col : Nat) (ch : Char)
  | uncaught (e : PyError)
deriving DecidableEq

deriving instance DecidableEq for Except

/-- The constant `string.ascii_uppercase` of the Python standard library. -/
def ascii_uppercase : List Char :=
  ['A','B','C','D','E','F','G','H','I','J','K','L','M',
   'N','O','P','Q','R','S','T','U','V','W','X','Y','Z']

/-- Models Python `str.isalpha` on a single character.  The model is exact
on all code points up to U+00FF (ASCII and the Latin-1 supplement, whose
alphabetic code points are U+0041–U+005A, U+0061–U+007A, U+00AA, U+00B5,
U+00BA, U+00C0–U+00D6, U+00D8–U+00F6 and U+00F8–U+00FF).  Code points above
U+00FF are outside the scope of this model and are mapped to `false`; no
theorem below depends on the value of this function above U+00FF. -/
def pyIsAlpha (c : Char) : Bool :=
  (65 ≤ c.toNat && c.toNat ≤ 90) || (97 ≤ c.toNat && c.toNat ≤ 122) ||
  c.toNat == 0xAA || c.toNat == 0xB5 || c.toNat == 0xBA ||
  (0xC0 ≤ c.toNat && c.toNat ≤ 0xD6) || (0xD8 ≤ c.toNat && c.toNat ≤ 0xF6) ||
  (0xF8 ≤ c.toNat && c.toNat ≤ 0xFF)

/-- Models the uppercase mapping Python `str.upper` applies to a single
character.  The model is exact on all code points up to U+00FF: ASCII
lowercase maps down by 32; `µ` (U+00B5) maps to U+039C; `ß` (U+00DF) maps
to the two-character string `SS`; `ÿ` (U+00FF) maps to U+0178; the Latin-1
lowercase range U+00E0–U+00FE (except `÷`, U+00F7) maps down by 32; every
other code point up to U+00FF maps to itself.  Code points above U+00FF are
outside the scope of this model and are mapped to themselves; no theorem
below depends on the value of this function above U+00FF. -/
def pyUpper (c : Char) : List Char :=
  if 97 ≤ c.toNat && c.toNat ≤ 122 then [Char.ofNat (c.toNat - 32)]
  else if c.toNat == 0xB5 then [Char.ofNat 0x39C]
  else if c.toNat == 0xDF then ['S', 'S']
  else if c.toNat == 0xFF then [Char.ofNat 0x178]
  else if 0xE0 ≤ c.toNat && c.toNat ≤ 0xFE && c.toNat != 0xF7 then
    [Char.ofNat (c.toNat - 32)]
  else [c]

/-- Models Python `str.upper` on a whole string: the concatenation of the
per-character uppercase mappings. -/
def pyUpperStr (s : List Char) : List Char := (s.map pyUpper).flatten

/-- Helper for `pyFind`: first index `≥ i` at which `sub` occurs, else -1. -/
def pyFindAux (sub : List Char) : List Char → Nat → Int
  | [], i => if sub.isPrefixOf ([] : List Char) then (i : Int) else -1
  | c :: t, i => if sub.isPrefixOf (c :: t) then (i : Int) else pyFindAux sub t (i + 1)

/-- Models Python `str.find`: the least index at which `sub` occurs as a
contiguous substring of `hay`, or -1 if there is none. -/
def pyFind (hay sub : List Char) : Int := pyFindAux sub hay 0

/-- Models Python string indexing `l[i]`, including negative-index
wraparound; `none` models an `IndexError`. -/
def pyIndex (l : List Char) (i : Int) : Option Char :=
  if 0 ≤ i then l[i.toNat]?
  else if 0 ≤ i + l.length then l[(i + (l.length : Int)).toNat]?
  else none

/-- Model of `Symbol.from_letter` from `src/ppl/lexer.py`: rejects (with
`ValueError`) a string whose length is not 1, then a string failing
`str.isalpha`, and otherwise returns
`Symbol(string.ascii_uppercase.find(letter.upper()))`.  Python `Symbol`
subclasses `int`, so the result is an `Int`. -/
def Symbol.from_letter (letter : List Char) : Except PyError Int :=
  if letter.length ≠ 1 then .error (.valueError ("给定的字符串不是单个字符"))
  else if ¬(letter ≠ [] ∧ letter.all pyIsAlpha) then
    .error (.valueError ("给定的字符不是字母"))
  else .ok (pyFind ascii_uppercase (pyUpperStr letter))

/-- Model of `Symbol.__str__` from `src/ppl/lexer.py`: `string.ascii_uppercase[self]`
(Python indexing, so negative symbols index from the end); `none` models an
`IndexError`. -/
def Symbol.toLetter (s : Int) : Option Char := pyIndex ascii_uppercase s

/-- Model of `OperatorSpec` from `src/ppl/lexer.py`: input form, actual (display)
form, and priority of one operator. -/
structure OperatorSpec where
  input_form : List Char
  actual_form : List Char
  priority : Nat
deriving DecidableEq

/-- The `Operator` enumeration from `src/ppl/lexer.py`, in definition
order. -/
inductive Operator
  | NEG
  | CONJ
  | DISJ
  | MAT_COND
  | BICOND
deriving DecidableEq

/-- The `value` of each `Operator` member, as written in the source. -/
def Operator.value : Operator → OperatorSpec
  | .NEG => ⟨['!'], ['¬'], 100⟩
  | .CONJ => ⟨['&'], ['∧'], 90⟩
  | .DISJ => ⟨['|'], ['∨'], 80⟩
  | .MAT_COND => ⟨['~'], ['→'], 70⟩
  | .BICOND => ⟨['='], ['↔'], 60⟩

/-- The iteration order of `for op in cls` over the `Operator` enum:
members in definition order. -/
def Operator.members : List Operator := [.NEG, .CONJ, .DISJ, .MAT_COND, .BICOND]

/-- Model of `Operator.from_input_form` from `src/ppl/lexer.py`: linear search of
the members in definition order for one whose `input_form` equals the
argument; raises `ValueError` when none matches. -/
def Operator.from_input_form (form : List Char) : Except PyError Operator :=
  match Operator.members.find? (fun op => op.value.input_form == form) with
  | some op => .ok op
  | none => .error (.valueError ("输入形式没有对应的运算符"))

/-- The four concrete token classes of `src/ppl/lexer.py`.  The Python
classes `LeftParenToken` and `RightParenToken` carry `None` as their
`value`, so no payload is modelled for them; each token carries its 0-based
`position` in the input string. -/
inductive Token
  | SymbolToken (value : Int) (position : Nat)
  | OperatorToken (value : Operator) (position : Nat)
  | LeftParenToken (position : Nat)
  | RightParenToken (position : Nat)
deriving DecidableEq

/-- The `position` attribute common to all token classes. -/
def Token.position : Token → Nat
  | .SymbolToken _ p => p
  | .OperatorToken _ p => p
  | .LeftParenToken p => p
  | .RightParenToken p => p

/-- The regex class `[A-Za-z]` of the `SYMBOL` token spec. -/
def isSymbolChar (c : Char) : Bool :=
  (65 ≤ c.toNat && c.toNat ≤ 90) || (97 ≤ c.toNat && c.toNat ≤ 122)

/-- The `OPERATOR` alternation of the token spec, built from the catalogue:
a character matches when its singleton string is the `input_form` of some
member. -/
def isOperatorChar (c : Char) : Bool :=
  Operator.members.any (fun op => op.value.input_form == [c])

/-- The regex class `[()]` of the `PAREN` token spec. -/
def isParenChar (c : Char) : Bool := c == '(' || c == ')'

/-- Models the regex class `\s` of the `SKIP` token spec, as matched by
Python `re` on `str` patterns: exactly the code points U+0009–U+000D,
U+001C–U+001F, U+0020, U+0085, U+00A0, U+1680, U+2000–U+200A, U+2028,
U+2029, U+202F, U+205F and U+3000.  This list is complete, so the model is
exact on every code point. -/
def pyIsSpace (c : Char) : Bool :=
  (0x9 ≤ c.toNat && c.toNat ≤ 0xD) || (0x1C ≤ c.toNat && c.toNat ≤ 0x1F) ||
  c.toNat == 0x20 || c.toNat == 0x85 || c.toNat == 0xA0 || c.toNat == 0x1680 ||
  (0x2000 ≤ c.toNat && c.toNat ≤ 0x200A) || c.toNat == 0x2028 ||
  c.toNat == 0x2029 || c.toNat == 0x202F || c.toNat == 0x205F ||
  c.toNat == 0x3000

/-- A character is recognised by the scanner when it matches one of the
four non-`MISMATCH` token specs. -/
def recognizedChar (c : Char) : Bool :=
  isSymbolChar c || isOperatorChar c || isParenChar c || pyIsSpace c

/-- One step of `pattern.finditer` plus the `match` statement of
`get_all_tokens`, iterated over the input.  The alternation
`SYMBOL | OPERATOR | PAREN | SKIP | MISMATCH` is tried in that order at the
cursor; `SKIP` (`\s+`) greedily consumes the whole maximal whitespace run;
`MISMATCH` (`.`) matches any character except `'\n'`, and a character
matched by no group (only possible for `'\n'`, which `\s` in fact always
matches, so the branch is dead) is skipped by `finditer` without an error.
The `SYMBOL` branch passes the matched character to `Symbol.from_letter`
and propagates its `ValueError`, should one be raised, as an uncaught
exception; the `OPERATOR` and `PAREN` branches raise `RuntimeError` when
the matched text cannot be resolved.  `fuel` is an upper bound on the
number of scanning steps; each step consumes at least one character, so
`fuel = s.length` (as supplied by `get_all_tokens`) is always enough, and
the `fuel = 0` fallback with a nonempty input is unreachable. -/
def get_all_tokens_aux : Nat → List Char → Nat → List Token × Option ScanError
  | _, [], _ => ([], none)
  | 0, _ :: _, _ => ([], none)
  | fuel + 1, c :: rest, i =>
    if isSymbolChar c then
      match Symbol.from_letter [c] with
      | .error e => ([], some (.uncaught e))
      | .ok v =>
        let r := get_all_tokens_aux fuel rest (i + 1)
        (Token.SymbolToken v i :: r.1, r.2)
    else if isOperatorChar c then
      match Operator.from_input_form [c] with
      | .error _ => ([], some (.uncaught .runtimeError))
      | .ok op =>
        let r := get_all_tokens_aux fuel rest (i + 1)
        (Token.OperatorToken op i :: r.1, r.2)
    else if isParenChar c then
      if c == '(' then
        let r := get_all_tokens_aux fuel rest (i + 1)
        (Token.LeftParenToken i :: r.1, r.2)
      else if c == ')' then
        let r := get_all_tokens_aux fuel rest (i + 1)
        (Token.RightParenToken i :: r.1, r.2)
      else ([], some (.uncaught .runtimeError))
    else if pyIsSpace c then
      get_all_tokens_aux fuel (rest.dropWhile pyIsSpace)
        (i + 1 + (rest.takeWhile pyIsSpace).length)
    else if c == '\n' then
      get_all_tokens_aux fuel rest (i + 1)
    else ([], some (.lexicalAnalysisFailed (i + 1) c))

/-- Model of `get_all_tokens` from `src/ppl/lexer.py`: the full scan of the input.
The first component is the list of tokens the generator yields, in yield
order; the second component is the error terminating the generator, or
`none` when the input is scanned to the end. -/
def get_all_tokens (s : List Char) : List Token × Option ScanError :=
  get_all_tokens_aux s.length s 0

/-- The token the scanner emits at a position holding character `c`:
relates each token class to the character it was scanned from. -/
def tokenMatches (c : Char) : Token → Prop
  | .SymbolToken v _ => isSymbolChar c = true ∧ Symbol.from_letter [c] = .ok v
  | .OperatorToken op _ => op.value.input_form = [c]
  | .LeftParenToken _ => c = '('
  | .RightParenToken _ => c = ')'


/-! Helper lemmas about the character classes. -/

/-- Every match of the `SYMBOL` class `[A-Za-z]` passes `str.isalpha`. -/
theorem pyIsAlpha_of_isSymbolChar {c : Char} (h : isSymbolChar c = true) :
    pyIsAlpha c = true := by
  simp only [isSymbolChar, Bool.or_eq_true, Bool.and_eq_true,
    decide_eq_true_eq] at h
  simp only [pyIsAlpha, Bool.or_eq_true, Bool.and_eq_true, decide_eq_true_eq,
    Nat.beq_eq_true_eq]
  omega

/-- The `OPERATOR` alternation matches exactly the five input glyphs. -/
theorem isOperatorChar_iff {c : Char} :
    isOperatorChar c = true ↔
      c = '!' ∨ c = '&' ∨ c = '|' ∨ c = '~' ∨ c = '=' := by
  constructor
  · intro h
    simp only [isOperatorChar, Operator.members, Operator.value, List.any_cons,
      List.any_nil, Bool.or_eq_true, beq_iff_eq, List.cons.injEq, and_true,
      Bool.false_eq_true, or_false] at h
    rcases h with h | h | h | h | h
    · exact Or.inl h.symm
    · exact Or.inr (Or.inl h.symm)
    · exact Or.inr (Or.inr (Or.inl h.symm))
    · exact Or.inr (Or.inr (Or.inr (Or.inl h.symm)))
    · exact Or.inr (Or.inr (Or.inr (Or.inr h.symm)))
  · intro h
    rcases h with rfl | rfl | rfl | rfl | rfl <;> decide

/-- The `PAREN` class matches exactly the two parenthesis characters. -/
theorem isParenChar_iff {c : Char} :
    isParenChar c = true ↔ c = '(' ∨ c = ')' := by
  simp [isParenChar]

/-- A `SYMBOL`-class character is not whitespace. -/
theorem not_space_of_symbol {c : Char} (h : isSymbolChar c = true) :
    pyIsSpace c = false := by
  simp only [isSymbolChar, Bool.or_eq_true, Bool.and_eq_true,
    decide_eq_true_eq] at h
  simp only [pyIsSpace, Bool.or_eq_false_iff, Bool.and_eq_false_iff,
    decide_eq_false_iff_not, Nat.beq_eq_true_eq, beq_eq_false_iff_ne, ne_eq]
  omega

/-- An `OPERATOR`-class character is not whitespace. -/
theorem not_space_of_op {c : Char} (h : isOperatorChar c = true) :
    pyIsSpace c = false := by
  rcases isOperatorChar_iff.mp h with rfl | rfl | rfl | rfl | rfl <;> decide

/-- A `PAREN`-class character is not whitespace. -/
theorem not_space_of_paren {c : Char} (h : isParenChar c = true) :
    pyIsSpace c = false := by
  rcases isParenChar_iff.mp h with rfl | rfl <;> decide

/-- On a `SYMBOL`-class character, `Symbol.from_letter` succeeds and
returns the index found in `ascii_uppercase`. -/
theorem from_letter_isSymbolChar {c : Char} (h : isSymbolChar c = true) :
    Symbol.from_letter [c] = .ok (pyFind ascii_uppercase (pyUpper c)) := by
  have ha := pyIsAlpha_of_isSymbolChar h
  simp [Symbol.from_letter, pyUpperStr, ha]

/-- On an `OPERATOR`-class character, `Operator.from_input_form` succeeds
and returns a member whose input form is that character. -/
theorem from_input_form_isOperatorChar {c : Char} (h : isOperatorChar c = true) :
    ∃ op, Operator.from_input_form [c] = .ok op ∧
      op.value.input_form = [c] := by
  have hsome : (Operator.members.find?
      (fun op => op.value.input_form == [c])).isSome := by
    rw [List.find?_isSome]
    simpa only [isOperatorChar, List.any_eq_true] using h
  obtain ⟨op, hop⟩ := Option.isSome_iff_exists.mp hsome
  refine ⟨op, ?_, ?_⟩
  · simp [Operator.from_input_form, hop]
  · have hp := @List.find?_some _ _ _ _ hop
    exact eq_of_beq hp

/-- When no member has the given input form, `Operator.from_input_form`
raises `ValueError`. -/
theorem from_input_form_no_glyph {form : List Char}
    (h : ∀ op : Operator, op.value.input_form ≠ form) :
    Operator.from_input_form form =
      .error (.valueError ("输入形式没有对应的运算符")) := by
  have hnone : Operator.members.find?
      (fun op => op.value.input_form == form) = none := by
    rw [List.find?_eq_none]
    intro op _
    simpa using h op
  simp [Operator.from_input_form, hnone]

/-! Unfolding lemmas, one per live branch of the scanner. -/

/-- The scanner yields nothing on the empty input. -/
theorem aux_nil (fuel : Nat) (i : Nat) :
    get_all_tokens_aux fuel [] i = ([], none) := by
  cases fuel <;> rfl

/-- Branch `SYMBOL`: emit the symbol token and continue. -/
theorem aux_cons_sym (fuel : Nat) {c : Char} (rest : List Char) (i : Nat)
    (hs : isSymbolChar c = true) :
    get_all_tokens_aux (fuel + 1) (c :: rest) i =
      (Token.SymbolToken (pyFind ascii_uppercase (pyUpper c)) i ::
          (get_all_tokens_aux fuel rest (i + 1)).1,
        (get_all_tokens_aux fuel rest (i + 1)).2) := by
  simp [get_all_tokens_aux, hs, from_letter_isSymbolChar hs]

/-- Branch `OPERATOR`: emit the operator token of the resolved member and
continue. -/
theorem aux_cons_op (fuel : Nat) {c : Char} (rest : List Char) (i : Nat)
    (hs : isSymbolChar c = false) (ho : isOperatorChar c = true) :
    ∃ op, op.value.input_form = [c] ∧
      get_all_tokens_aux (fuel + 1) (c :: rest) i =
        (Token.OperatorToken op i ::
            (get_all_tokens_aux fuel rest (i + 1)).1,
          (get_all_tokens_aux fuel rest (i + 1)).2) := by
  obtain ⟨op, hok, hform⟩ := from_input_form_isOperatorChar ho
  exact ⟨op, hform, by simp [get_all_tokens_aux, hs, ho, hok]⟩

/-- Branch `PAREN` on `(`: emit the left-parenthesis token and continue. -/
theorem aux_cons_lp (fuel : Nat) (rest : List Char) (i : Nat) :
    get_all_tokens_aux (fuel + 1) ('(' :: rest) i =
      (Token.LeftParenToken i :: (get_all_tokens_aux fuel rest (i + 1)).1,
        (get_all_tokens_aux fuel rest (i + 1)).2) := by
  simp [get_all_tokens_aux,
    show isSymbolChar '(' = false from by decide,
    show isOperatorChar '(' = false from by decide,
    show isParenChar '(' = true from by decide]

/-- Branch `PAREN` on `)`: emit the right-parenthesis token and continue. -/
theorem aux_cons_rp (fuel : Nat) (rest : List Char) (i : Nat) :
    get_all_tokens_aux (fuel + 1) (')' :: rest) i =
      (Token.RightParenToken i :: (get_all_tokens_aux fuel rest (i + 1)).1,
        (get_all_tokens_aux fuel rest (i + 1)).2) := by
  simp [get_all_tokens_aux,
    show isSymbolChar ')' = false from by decide,
    show isOperatorChar ')' = false from by decide,
    show isParenChar ')' = true from by decide]

/-- Branch `SKIP`: consume the maximal whitespace run silently. -/
theorem aux_cons_ws (fuel : Nat) {c : Char} (rest : List Char) (i : Nat)
    (hs : isSymbolChar c = false) (ho : isOperatorChar c = false)
    (hp : isParenChar c = false) (hw : pyIsSpace c = true) :
    get_all_tokens_aux (fuel + 1) (c :: rest) i =
      get_all_tokens_aux fuel (rest.dropWhile pyIsSpace)
        (i + 1 + (rest.takeWhile pyIsSpace).length) := by
  simp [get_all_tokens_aux, hs, ho, hp, hw]

/-- Branch `MISMATCH`: stop with `LexicalAnalysisFailedError` at the
1-based column of the offending character. -/
theorem aux_cons_mismatch (fuel : Nat) {c : Char} (rest : List Char) (i : Nat)
    (hs : isSymbolChar c = false) (ho : isOperatorChar c = false)
    (hp : isParenChar c = false) (hw : pyIsSpace c = false) :
    get_all_tokens_aux (fuel + 1) (c :: rest) i =
      ([], some (.lexicalAnalysisFailed (i + 1) c)) := by
  have hnl : (c == '\n') = false := by
    cases hc : c == '\n'
    · rfl
    · exact absurd hw (by rw [eq_of_beq hc]; decide)
  simp [get_all_tokens_aux, hs, ho, hp, hw, hnl]

/-! List helpers for the whitespace run. -/

/-- Every element of `takeWhile p l` satisfies `p`. -/
theorem pred_of_mem_takeWhile {p : Char → Bool} :
    ∀ {l : List Char} {a : Char}, a ∈ l.takeWhile p → p a = true
  | [], a, h => by simp [List.takeWhile] at h
  | x :: t, a, h => by
    rw [List.takeWhile_cons] at h
    by_cases hx : p x = true
    · rw [if_pos hx] at h
      rcases List.mem_cons.mp h with h1 | h2
      · exact h1 ▸ hx
      · exact pred_of_mem_takeWhile h2
    · rw [if_neg hx] at h
      exact absurd h (List.not_mem_nil a)

/-- The function `takeWhile` commutes with `take`. -/
theorem takeWhile_take_comm (p : Char → Bool) :
    ∀ (l : List Char) (n : Nat),
      (l.take n).takeWhile p = (l.takeWhile p).take n
  | _, 0 => by simp
  | [], _ => by simp
  | a :: l, n + 1 => by
    rw [List.take_succ_cons, List.takeWhile_cons, List.takeWhile_cons]
    by_cases h : p a = true
    · rw [if_pos h, if_pos h, List.take_succ_cons, takeWhile_take_comm p l n]
    · rw [if_neg h, if_neg h, List.take_nil]

/-- Applying `dropWhile` after `take`: the whitespace run that `take` leaves in
place is still dropped, and the remainder is truncated accordingly. -/
theorem dropWhile_take_comm (p : Char → Bool) :
    ∀ (l : List Char) (n : Nat),
      (l.take n).dropWhile p =
        (l.dropWhile p).take (n - (l.takeWhile p).length)
  | _, 0 => by simp
  | [], _ => by simp
  | a :: l, n + 1 => by
    rw [List.take_succ_cons, List.dropWhile_cons, List.dropWhile_cons,
      List.takeWhile_cons]
    by_cases h : p a = true
    · rw [if_pos h, if_pos h, if_pos h, List.length_cons,
        Nat.succ_sub_succ]
      exact dropWhile_take_comm p l n
    · rw [if_neg h, if_neg h, if_neg h]
      simp

/-- The lengths of the whitespace run and of the remainder add up to the
length of the list. -/
theorem takeWhile_dropWhile_length (p : Char → Bool) (l : List Char) :
    (l.takeWhile p).length + (l.dropWhile p).length = l.length := by
  rw [← List.length_append, List.takeWhile_append_dropWhile]

/-- Reading past the whitespace run of a list is reading the remainder. -/
theorem getElem_dropWhile_shift (p : Char → Bool) (rest : List Char) (k : Nat) :
    rest[(rest.takeWhile p).length + k]? = (rest.dropWhile p)[k]? := by
  obtain ⟨tw, dw, hsplit, htw, hdw⟩ :
      ∃ tw dw, rest = tw ++ dw ∧
        tw = rest.takeWhile p ∧ dw = rest.dropWhile p :=
    ⟨_, _, (List.takeWhile_append_dropWhile p rest).symm, rfl, rfl⟩
  rw [← htw, ← hdw, hsplit, List.getElem?_append_right (by omega)]
  congr 1
  omega

/-- Index shift across a consumed whitespace run, with the head cons. -/
theorem cons_ws_getElem (c : Char) (rest : List Char) (k : Nat) :
    (c :: rest)[1 + (rest.takeWhile pyIsSpace).length + k]? =
      (rest.dropWhile pyIsSpace)[k]? := by
  have h1 : 1 + (rest.takeWhile pyIsSpace).length + k =
      ((rest.takeWhile pyIsSpace).length + k) + 1 := by omega
  rw [h1, List.getElem?_cons_succ, getElem_dropWhile_shift]

/-- A character read at an index inside the whitespace run is whitespace. -/
theorem ws_of_getElem_lt_run (rest : List Char) (j : Nat) (d : Char)
    (hj : j < (rest.takeWhile pyIsSpace).length)
    (hjd : rest[j]? = some d) : pyIsSpace d = true := by
  obtain ⟨tw, dw, hsplit, htw, hdw⟩ :
      ∃ tw dw, rest = tw ++ dw ∧
        tw = rest.takeWhile pyIsSpace ∧ dw = rest.dropWhile pyIsSpace :=
    ⟨_, _, (List.takeWhile_append_dropWhile pyIsSpace rest).symm, rfl, rfl⟩
  rw [← htw] at hj
  rw [hsplit, List.getElem?_append_left hj] at hjd
  obtain ⟨hlt, hget⟩ := List.getElem?_eq_some_iff.mp hjd
  have hmem : d ∈ tw := hget ▸ List.getElem_mem hlt
  exact pred_of_mem_takeWhile (htw ▸ hmem)

/-- Characterisation of the scan outcome: either every character of the
input is recognised and no error is raised, or the error raised is
`LexicalAnalysisFailedError` at the first unrecognised character,
reporting its 1-based column (relative to start index `i`) and the
character itself. -/
theorem aux_err :
    ∀ (fuel : Nat) (s : List Char) (i : Nat), s.length ≤ fuel →
      ((get_all_tokens_aux fuel s i).2 = none ∧
        ∀ c ∈ s, recognizedChar c = true) ∨
      (∃ k c, s[k]? = some c ∧ recognizedChar c = false ∧
        (∀ j d, j < k → s[j]? = some d → recognizedChar d = true) ∧
        (get_all_tokens_aux fuel s i).2 =
          some (.lexicalAnalysisFailed (i + k + 1) c)) := by
  intro fuel
  induction fuel with
  | zero =>
    intro s i h
    have hnil : s = [] := List.length_eq_zero.mp (Nat.le_zero.mp h)
    subst hnil
    left
    simp [aux_nil]
  | succ fuel ih =>
    intro s i h
    match s with
    | [] =>
      left
      simp [aux_nil]
    | c :: rest =>
      have hrest : rest.length ≤ fuel := by
        simp only [List.length_cons] at h
        omega
      cases hs : isSymbolChar c with
      | true =>
        rw [aux_cons_sym fuel rest i hs]
        rcases ih rest (i + 1) hrest with ⟨h2, hall⟩ | ⟨k, d, hk, hd, hbef, herr⟩
        · left
          refine ⟨by simpa using h2, ?_⟩
          intro x hx
          rcases List.mem_cons.mp hx with rfl | hx'
          · simp [recognizedChar, hs]
          · exact hall x hx'
        · right
          refine ⟨k + 1, d, by simpa using hk, hd, ?_, ?_⟩
          · intro j d' hj hjd
            cases j with
            | zero =>
              have hcd : c = d' := by simpa using hjd
              subst hcd
              simp [recognizedChar, hs]
            | succ j' =>
              exact hbef j' d' (by omega) (by simpa using hjd)
          · have hcol : i + (k + 1) + 1 = (i + 1) + k + 1 := by omega
            rw [hcol]
            simpa using herr
      | false =>
        cases ho : isOperatorChar c with
        | true =>
          obtain ⟨op, hform, heq⟩ := aux_cons_op fuel rest i hs ho
          rw [heq]
          rcases ih rest (i + 1) hrest with ⟨h2, hall⟩ | ⟨k, d, hk, hd, hbef, herr⟩
          · left
            refine ⟨by simpa using h2, ?_⟩
            intro x hx
            rcases List.mem_cons.mp hx with rfl | hx'
            · simp [recognizedChar, ho]
            · exact hall x hx'
          · right
            refine ⟨k + 1, d, by simpa using hk, hd, ?_, ?_⟩
            · intro j d' hj hjd
              cases j with
              | zero =>
                have hcd : c = d' := by simpa using hjd
                subst hcd
                simp [recognizedChar, ho]
              | succ j' =>
                exact hbef j' d' (by omega) (by simpa using hjd)
            · have hcol : i + (k + 1) + 1 = (i + 1) + k + 1 := by omega
              rw [hcol]
              simpa using herr
        | false =>
          cases hp : isParenChar c with
          | true =>
            have hcparen := isParenChar_iff.mp hp
            have hstep :
                get_all_tokens_aux (fuel + 1) (c :: rest) i =
                  ((if c = '(' then Token.LeftParenToken i
                    else Token.RightParenToken i) ::
                      (get_all_tokens_aux fuel rest (i + 1)).1,
                    (get_all_tokens_aux fuel rest (i + 1)).2) := by
              rcases hcparen with rfl | rfl
              · rw [aux_cons_lp]
                simp
              · rw [aux_cons_rp]
                simp
            rw [hstep]
            rcases ih rest (i + 1) hrest with ⟨h2, hall⟩ | ⟨k, d, hk, hd, hbef, herr⟩
            · left
              refine ⟨by simpa using h2, ?_⟩
              intro x hx
              rcases List.mem_cons.mp hx with rfl | hx'
              · simp [recognizedChar, hp]
              · exact hall x hx'
            · right
              refine ⟨k + 1, d, by simpa using hk, hd, ?_, ?_⟩
              · intro j d' hj hjd
                cases j with
                | zero =>
                  have hcd : c = d' := by simpa using hjd
                  subst hcd
                  simp [recognizedChar, hp]
                | succ j' =>
                  exact hbef j' d' (by omega) (by simpa using hjd)
              · have hcol : i + (k + 1) + 1 = (i + 1) + k + 1 := by omega
                rw [hcol]
                simpa using herr
          | false =>
            cases hw : pyIsSpace c with
            | true =>
              rw [aux_cons_ws fuel rest i hs ho hp hw]
              have hlen : (rest.dropWhile pyIsSpace).length ≤ fuel := by
                have := takeWhile_dropWhile_length pyIsSpace rest
                omega
              rcases ih (rest.dropWhile pyIsSpace)
                  (i + 1 + (rest.takeWhile pyIsSpace).length) hlen with
                ⟨h2, hall⟩ | ⟨k, d, hk, hd, hbef, herr⟩
              · left
                refine ⟨h2, ?_⟩
                intro x hx
                rcases List.mem_cons.mp hx with rfl | hx'
                · simp [recognizedChar, hw]
                · have hsplit := List.takeWhile_append_dropWhile pyIsSpace rest
                  rw [← hsplit] at hx'
                  rcases List.mem_append.mp hx' with hxin | hxin
                  · have hx2 := pred_of_mem_takeWhile hxin
                    simp [recognizedChar, hx2]
                  · exact hall x hxin
              · right
                refine ⟨1 + (rest.takeWhile pyIsSpace).length + k, d, ?_, hd,
                  ?_, ?_⟩
                · rw [cons_ws_getElem]
                  exact hk
                · intro j d' hj hjd
                  cases j with
                  | zero =>
                    have hcd : c = d' := by simpa using hjd
                    subst hcd
                    simp [recognizedChar, hw]
                  | succ j' =>
                    have hjd' : rest[j']? = some d' := by simpa using hjd
                    by_cases hcase : j' < (rest.takeWhile pyIsSpace).length
                    · have hx2 := ws_of_getElem_lt_run rest j' d' hcase hjd'
                      simp [recognizedChar, hx2]
                    · push_neg at hcase
                      have hk2 : (rest.takeWhile pyIsSpace).length +
                          (j' - (rest.takeWhile pyIsSpace).length) = j' := by
                        omega
                      have h3 := getElem_dropWhile_shift pyIsSpace rest
                        (j' - (rest.takeWhile pyIsSpace).length)
                      rw [hk2] at h3
                      refine hbef (j' - (rest.takeWhile pyIsSpace).length) d'
                        (by omega) ?_
                      rw [← h3]
                      exact hjd'
                · have hcol :
                      i + (1 + (rest.takeWhile pyIsSpace).length + k) + 1 =
                        (i + 1 + (rest.takeWhile pyIsSpace).length) + k + 1 := by
                    omega
                  rw [hcol]
                  exact herr
            | false =>
              rw [aux_cons_mismatch fuel rest i hs ho hp hw]
              right
              refine ⟨0, c, by simp, ?_, ?_, by simp⟩
              · simp [recognizedChar, hs, ho, hp, hw]
              · intro j d hj _
                exact absurd hj (Nat.not_lt_zero j)

/-- Characterisation of the yielded tokens: every token the scanner yields
carries the position (relative to start index `i`) of a character of the
input, and is exactly the token class and payload that character scans
to. -/
theorem aux_tokens :
    ∀ (fuel : Nat) (s : List Char) (i : Nat), s.length ≤ fuel →
      ∀ t ∈ (get_all_tokens_aux fuel s i).1,
        ∃ k c, s[k]? = some c ∧ t.position = i + k ∧ tokenMatches c t := by
  intro fuel
  induction fuel with
  | zero =>
    intro s i h t ht
    have hnil : s = [] := List.length_eq_zero.mp (Nat.le_zero.mp h)
    subst hnil
    rw [aux_nil] at ht
    exact absurd ht (List.not_mem_nil t)
  | succ fuel ih =>
    intro s i h t ht
    match s with
    | [] =>
      rw [aux_nil] at ht
      exact absurd ht (List.not_mem_nil t)
    | c :: rest =>
      have hrest : rest.length ≤ fuel := by
        simp only [List.length_cons] at h
        omega
      cases hs : isSymbolChar c with
      | true =>
        rw [aux_cons_sym fuel rest i hs] at ht
        rcases List.mem_cons.mp ht with rfl | ht'
        · refine ⟨0, c, by simp, by simp [Token.position], ?_⟩
          exact ⟨hs, from_letter_isSymbolChar hs⟩
        · obtain ⟨k, d, hk, hpos, hm⟩ := ih rest (i + 1) hrest t ht'
          exact ⟨k + 1, d, by simpa using hk, by rw [hpos]; omega, hm⟩
      | false =>
        cases ho : isOperatorChar c with
        | true =>
          obtain ⟨op, hform, heq⟩ := aux_cons_op fuel rest i hs ho
          rw [heq] at ht
          rcases List.mem_cons.mp ht with rfl | ht'
          · exact ⟨0, c, by simp, by simp [Token.position], hform⟩
          · obtain ⟨k, d, hk, hpos, hm⟩ := ih rest (i + 1) hrest t ht'
            exact ⟨k + 1, d, by simpa using hk, by rw [hpos]; omega, hm⟩
        | false =>
          cases hp : isParenChar c with
          | true =>
            rcases isParenChar_iff.mp hp with rfl | rfl
            · rw [aux_cons_lp] at ht
              rcases List.mem_cons.mp ht with rfl | ht'
              · exact ⟨0, '(', by simp, by simp [Token.position],
                  by simp [tokenMatches]⟩
              · obtain ⟨k, d, hk, hpos, hm⟩ := ih rest (i + 1) hrest t ht'
                exact ⟨k + 1, d, by simpa using hk, by rw [hpos]; omega, hm⟩
            · rw [aux_cons_rp] at ht
              rcases List.mem_cons.mp ht with rfl | ht'
              · exact ⟨0, ')', by simp, by simp [Token.position],
                  by simp [tokenMatches]⟩
              · obtain ⟨k, d, hk, hpos, hm⟩ := ih rest (i + 1) hrest t ht'
                exact ⟨k + 1, d, by simpa using hk, by rw [hpos]; omega, hm⟩
          | false =>
            cases hw : pyIsSpace c with
            | true =>
              rw [aux_cons_ws fuel rest i hs ho hp hw] at ht
              have hlen : (rest.dropWhile pyIsSpace).length ≤ fuel := by
                have := takeWhile_dropWhile_length pyIsSpace rest
                omega
              obtain ⟨k, d, hk, hpos, hm⟩ := ih (rest.dropWhile pyIsSpace)
                (i + 1 + (rest.takeWhile pyIsSpace).length) hlen t ht
              refine ⟨1 + (rest.takeWhile pyIsSpace).length + k, d, ?_, ?_, hm⟩
              · rw [cons_ws_getElem]
                exact hk
              · rw [hpos]
                omega
            | false =>
              rw [aux_cons_mismatch fuel rest i hs ho hp hw] at ht
              exact absurd ht (List.not_mem_nil t)

/-- The positions of the yielded tokens are strictly increasing, and all
of them are at least the start index `i`. -/
theorem aux_pairwise :
    ∀ (fuel : Nat) (s : List Char) (i : Nat), s.length ≤ fuel →
      ((get_all_tokens_aux fuel s i).1.map Token.position).Pairwise (· < ·) := by
  intro fuel
  induction fuel with
  | zero =>
    intro s i h
    have hnil : s = [] := List.length_eq_zero.mp (Nat.le_zero.mp h)
    subst hnil
    simp [aux_nil]
  | succ fuel ih =>
    intro s i h
    have hlb : ∀ (s' : List Char) (i' : Nat), s'.length ≤ fuel →
        ∀ q ∈ ((get_all_tokens_aux fuel s' i').1.map Token.position),
          i' ≤ q := by
      intro s' i' h' q hq
      obtain ⟨t, ht, hpos⟩ := List.mem_map.mp hq
      obtain ⟨k, d, _, hpk, _⟩ := aux_tokens fuel s' i' h' t ht
      omega
    match s with
    | [] =>
      simp [aux_nil]
    | c :: rest =>
      have hrest : rest.length ≤ fuel := by
        simp only [List.length_cons] at h
        omega
      cases hs : isSymbolChar c with
      | true =>
        rw [aux_cons_sym fuel rest i hs]
        refine List.pairwise_cons.mpr ⟨?_, ih rest (i + 1) hrest⟩
        intro q hq
        have := hlb rest (i + 1) hrest q (by simpa using hq)
        simp only [Token.position]
        omega
      | false =>
        cases ho : isOperatorChar c with
        | true =>
          obtain ⟨op, hform, heq⟩ := aux_cons_op fuel rest i hs ho
          rw [heq]
          refine List.pairwise_cons.mpr ⟨?_, ih rest (i + 1) hrest⟩
          intro q hq
          have := hlb rest (i + 1) hrest q (by simpa using hq)
          simp only [Token.position]
          omega
        | false =>
          cases hp : isParenChar c with
          | true =>
            rcases isParenChar_iff.mp hp with rfl | rfl
            · rw [aux_cons_lp]
              refine List.pairwise_cons.mpr ⟨?_, ih rest (i + 1) hrest⟩
              intro q hq
              have := hlb rest (i + 1) hrest q (by simpa using hq)
              simp only [Token.position]
              omega
            · rw [aux_cons_rp]
              refine List.pairwise_cons.mpr ⟨?_, ih rest (i + 1) hrest⟩
              intro q hq
              have := hlb rest (i + 1) hrest q (by simpa using hq)
              simp only [Token.position]
              omega
          | false =>
            cases hw : pyIsSpace c with
            | true =>
              rw [aux_cons_ws fuel rest i hs ho hp hw]
              have hlen : (rest.dropWhile pyIsSpace).length ≤ fuel := by
                have := takeWhile_dropWhile_length pyIsSpace rest
                omega
              exact ih (rest.dropWhile pyIsSpace)
                (i + 1 + (rest.takeWhile pyIsSpace).length) hlen
            | false =>
              rw [aux_cons_mismatch fuel rest i hs ho hp hw]
              simp

/-- When the scan fails at relative offset `k`, the tokens yielded before
the failure are exactly the tokens of the clean scan of the first `k`
characters, and that clean scan raises no error. -/
theorem aux_error_take :
    ∀ (fuel : Nat) (s : List Char) (i k : Nat) (c : Char), s.length ≤ fuel →
      (get_all_tokens_aux fuel s i).2 =
        some (.lexicalAnalysisFailed (i + k + 1) c) →
      (get_all_tokens_aux fuel s i).1 =
          (get_all_tokens_aux fuel (s.take k) i).1 ∧
        (get_all_tokens_aux fuel (s.take k) i).2 = none := by
  intro fuel
  induction fuel with
  | zero =>
    intro s i k c h herr
    have hnil : s = [] := List.length_eq_zero.mp (Nat.le_zero.mp h)
    subst hnil
    rw [aux_nil] at herr
    exact absurd herr (by simp)
  | succ fuel ih =>
    intro s i k c h herr
    match s with
    | [] =>
      rw [aux_nil] at herr
      exact absurd herr (by simp)
    | c' :: rest =>
      have hrest : rest.length ≤ fuel := by
        simp only [List.length_cons] at h
        omega
      cases hs : isSymbolChar c' with
      | true =>
        rw [aux_cons_sym fuel rest i hs] at herr ⊢
        simp only at herr
        obtain ⟨k', rfl⟩ : ∃ k', k = k' + 1 := by
          rcases aux_err fuel rest (i + 1) hrest with ⟨h2, _⟩ |
            ⟨k2, d2, _, _, _, herr2⟩
          · rw [h2] at herr
            exact absurd herr (by simp)
          · have hco := herr2.symm.trans herr
            simp only [Option.some.injEq,
              ScanError.lexicalAnalysisFailed.injEq] at hco
            exact ⟨k2, by omega⟩
        have herr' : (get_all_tokens_aux fuel rest (i + 1)).2 =
            some (.lexicalAnalysisFailed ((i + 1) + k' + 1) c) := by
          rw [herr]
          congr 2
          omega
        obtain ⟨htok, hnone⟩ := ih rest (i + 1) k' c hrest herr'
        rw [List.take_succ_cons, aux_cons_sym fuel (rest.take k') i hs]
        exact ⟨by rw [htok], hnone⟩
      | false =>
        cases ho : isOperatorChar c' with
        | true =>
          obtain ⟨op, hform, heq⟩ := aux_cons_op fuel rest i hs ho
          obtain ⟨op2, hform2, heq2⟩ :=
            aux_cons_op fuel (rest.take (k - 1)) i hs ho
          rw [heq] at herr ⊢
          simp only at herr
          obtain ⟨k', rfl⟩ : ∃ k', k = k' + 1 := by
            rcases aux_err fuel rest (i + 1) hrest with ⟨h2, _⟩ |
              ⟨k2, d2, _, _, _, herr2⟩
            · rw [h2] at herr
              exact absurd herr (by simp)
            · have hco := herr2.symm.trans herr
              simp only [Option.some.injEq,
                ScanError.lexicalAnalysisFailed.injEq] at hco
              exact ⟨k2, by omega⟩
          have herr' : (get_all_tokens_aux fuel rest (i + 1)).2 =
              some (.lexicalAnalysisFailed ((i + 1) + k' + 1) c) := by
            rw [herr]
            congr 2
            omega
          obtain ⟨htok, hnone⟩ := ih rest (i + 1) k' c hrest herr'
          simp only [Nat.add_sub_cancel] at heq2
          rw [List.take_succ_cons, heq2]
          have hops : op2 = op := by
            have h12 := hform2.trans hform.symm
            cases op <;> cases op2 <;> simp_all [Operator.value]
          rw [hops]
          exact ⟨by rw [htok], hnone⟩
        | false =>
          cases hp : isParenChar c' with
          | true =>
            obtain ⟨k', rfl⟩ : ∃ k', k = k' + 1 := by
              have herr2 := herr
              rcases isParenChar_iff.mp hp with rfl | rfl
              all_goals
                first
                  | rw [aux_cons_lp fuel rest i] at herr2
                  | rw [aux_cons_rp fuel rest i] at herr2
              all_goals
                simp only at herr2
                rcases aux_err fuel rest (i + 1) hrest with ⟨h2, _⟩ |
                  ⟨k2, d2, _, _, _, herr3⟩
                · rw [h2] at herr2
                  exact absurd herr2 (by simp)
                · have hco := herr3.symm.trans herr2
                  simp only [Option.some.injEq,
                    ScanError.lexicalAnalysisFailed.injEq] at hco
                  exact ⟨k2, by omega⟩
            rcases isParenChar_iff.mp hp with rfl | rfl
            · rw [aux_cons_lp fuel rest i] at herr ⊢
              simp only at herr
              have herr' : (get_all_tokens_aux fuel rest (i + 1)).2 =
                  some (.lexicalAnalysisFailed ((i + 1) + k' + 1) c) := by
                rw [herr]
                congr 2
                omega
              obtain ⟨htok, hnone⟩ := ih rest (i + 1) k' c hrest herr'
              rw [List.take_succ_cons, aux_cons_lp fuel (rest.take k') i]
              exact ⟨by rw [htok], hnone⟩
            · rw [aux_cons_rp fuel rest i] at herr ⊢
              simp only at herr
              have herr' : (get_all_tokens_aux fuel rest (i + 1)).2 =
                  some (.lexicalAnalysisFailed ((i + 1) + k' + 1) c) := by
                rw [herr]
                congr 2
                omega
              obtain ⟨htok, hnone⟩ := ih rest (i + 1) k' c hrest herr'
              rw [List.take_succ_cons, aux_cons_rp fuel (rest.take k') i]
              exact ⟨by rw [htok], hnone⟩
          | false =>
            cases hw : pyIsSpace c' with
            | true =>
              rw [aux_cons_ws fuel rest i hs ho hp hw] at herr ⊢
              have hlen : (rest.dropWhile pyIsSpace).length ≤ fuel := by
                have := takeWhile_dropWhile_length pyIsSpace rest
                omega
              obtain ⟨k2, rfl⟩ :
                  ∃ k2, k = 1 + (rest.takeWhile pyIsSpace).length + k2 := by
                rcases aux_err fuel (rest.dropWhile pyIsSpace)
                    (i + 1 + (rest.takeWhile pyIsSpace).length) hlen with
                  ⟨h2, _⟩ | ⟨k2, d2, _, _, _, herr2⟩
                · rw [h2] at herr
                  exact absurd herr (by simp)
                · have hco := herr2.symm.trans herr
                  simp only [Option.some.injEq,
                    ScanError.lexicalAnalysisFailed.injEq] at hco
                  exact ⟨k2, by omega⟩
              have herr' : (get_all_tokens_aux fuel (rest.dropWhile pyIsSpace)
                    (i + 1 + (rest.takeWhile pyIsSpace).length)).2 =
                  some (.lexicalAnalysisFailed
                    ((i + 1 + (rest.takeWhile pyIsSpace).length) + k2 + 1) c) := by
                rw [herr]
                congr 2
                omega
              obtain ⟨htok, hnone⟩ := ih (rest.dropWhile pyIsSpace)
                (i + 1 + (rest.takeWhile pyIsSpace).length) k2 c hlen herr'
              have hstep2 : get_all_tokens_aux (fuel + 1)
                    ((c' :: rest).take
                      (1 + (rest.takeWhile pyIsSpace).length + k2)) i =
                  get_all_tokens_aux fuel
                    ((rest.dropWhile pyIsSpace).take k2)
                    (i + 1 + (rest.takeWhile pyIsSpace).length) := by
                have h1 : 1 + (rest.takeWhile pyIsSpace).length + k2 =
                    ((rest.takeWhile pyIsSpace).length + k2) + 1 := by
                  omega
                rw [h1, List.take_succ_cons, aux_cons_ws fuel _ i hs ho hp hw,
                  takeWhile_take_comm, dropWhile_take_comm]
                have h4 : (rest.takeWhile pyIsSpace).take
                      ((rest.takeWhile pyIsSpace).length + k2) =
                    rest.takeWhile pyIsSpace :=
                  List.take_of_length_le (by omega)
                rw [h4, Nat.add_sub_cancel_left]
              rw [hstep2]
              exact ⟨by rw [htok], hnone⟩
            | false =>
              rw [aux_cons_mismatch fuel rest i hs ho hp hw] at herr ⊢
              simp only [Option.some.injEq,
                ScanError.lexicalAnalysisFailed.injEq] at herr
              have hk0 : k = 0 := by omega
              subst hk0
              rw [List.take_zero, aux_nil]
              exact ⟨rfl, rfl⟩

/-- The scan result does not depend on the fuel bound, as long as the
bound covers the input length. -/
theorem aux_fuel :
    ∀ (fuel1 fuel2 : Nat) (s : List Char) (i : Nat),
      s.length ≤ fuel1 → s.length ≤ fuel2 →
      get_all_tokens_aux fuel1 s i = get_all_tokens_aux fuel2 s i := by
  intro fuel1
  induction fuel1 with
  | zero =>
    intro fuel2 s i h1 h2
    have hnil : s = [] := List.length_eq_zero.mp (Nat.le_zero.mp h1)
    subst hnil
    rw [aux_nil, aux_nil]
  | succ fuel1 ih =>
    intro fuel2 s i h1 h2
    match s with
    | [] => rw [aux_nil, aux_nil]
    | c :: rest =>
      obtain ⟨fuel2', rfl⟩ : ∃ f, fuel2 = f + 1 := by
        cases fuel2 with
        | zero => simp at h2
        | succ f => exact ⟨f, rfl⟩
      have hr1 : rest.length ≤ fuel1 := by
        simp only [List.length_cons] at h1
        omega
      have hr2 : rest.length ≤ fuel2' := by
        simp only [List.length_cons] at h2
        omega
      cases hs : isSymbolChar c with
      | true =>
        rw [aux_cons_sym fuel1 rest i hs, aux_cons_sym fuel2' rest i hs,
          ih fuel2' rest (i + 1) hr1 hr2]
      | false =>
        cases ho : isOperatorChar c with
        | true =>
          obtain ⟨op, hform, heq⟩ := aux_cons_op fuel1 rest i hs ho
          obtain ⟨op2, hform2, heq2⟩ := aux_cons_op fuel2' rest i hs ho
          have hops : op2 = op := by
            have h12 := hform2.trans hform.symm
            cases op <;> cases op2 <;> simp_all [Operator.value]
          rw [heq, heq2, hops, ih fuel2' rest (i + 1) hr1 hr2]
        | false =>
          cases hp : isParenChar c with
          | true =>
            rcases isParenChar_iff.mp hp with rfl | rfl
            · rw [aux_cons_lp, aux_cons_lp, ih fuel2' rest (i + 1) hr1 hr2]
            · rw [aux_cons_rp, aux_cons_rp, ih fuel2' rest (i + 1) hr1 hr2]
          | false =>
            cases hw : pyIsSpace c with
            | true =>
              rw [aux_cons_ws fuel1 rest i hs ho hp hw,
                aux_cons_ws fuel2' rest i hs ho hp hw]
              have hlen := takeWhile_dropWhile_length pyIsSpace rest
              exact ih fuel2' (rest.dropWhile pyIsSpace)
                (i + 1 + (rest.takeWhile pyIsSpace).length)
                (by omega) (by omega)
            | false =>
              rw [aux_cons_mismatch fuel1 rest i hs ho hp hw,
                aux_cons_mismatch fuel2' rest i hs ho hp hw]

/-- A token is never scanned from a whitespace character. -/
theorem not_space_of_tokenMatches {c : Char} {t : Token}
    (h : tokenMatches c t) : pyIsSpace c = false := by
  cases t with
  | SymbolToken v p => exact not_space_of_symbol h.1
  | OperatorToken op p =>
    refine not_space_of_op (isOperatorChar_iff.mpr ?_)
    have h' : op.value.input_form = [c] := h
    cases op with
    | NEG =>
      have : '!' = c := by simpa [Operator.value] using h'
      exact Or.inl this.symm
    | CONJ =>
      have : '&' = c := by simpa [Operator.value] using h'
      exact Or.inr (Or.inl this.symm)
    | DISJ =>
      have : '|' = c := by simpa [Operator.value] using h'
      exact Or.inr (Or.inr (Or.inl this.symm))
    | MAT_COND =>
      have : '~' = c := by simpa [Operator.value] using h'
      exact Or.inr (Or.inr (Or.inr (Or.inl this.symm)))
    | BICOND =>
      have : '=' = c := by simpa [Operator.value] using h'
      exact Or.inr (Or.inr (Or.inr (Or.inr this.symm)))
  | LeftParenToken p =>
    have h' : c = '(' := h
    rw [h']
    decide
  | RightParenToken p =>
    have h' : c = ')' := h
    rw [h']
    decide

/-! The claims. -/

/-- Claim C1: tokenizing the spec's worked examples yields exactly the
stated sequences — `"A&B"` yields
`[SymbolToken(A,0), OperatorToken(Conjunction,1), SymbolToken(B,2)]` and
`"(P~Q)"` yields `[LeftParenToken(0), SymbolToken(P,1),
OperatorToken(MaterialConditional,2), SymbolToken(Q,3),
RightParenToken(4)]` — with no error raised. -/
theorem claim_c1 :
    get_all_tokens ['A', '&', 'B'] =
      ([Token.SymbolToken 0 0, Token.OperatorToken .CONJ 1,
        Token.SymbolToken 1 2], none) ∧
    get_all_tokens ['(', 'P', '~', 'Q', ')'] =
      ([Token.LeftParenToken 0, Token.SymbolToken 15 1,
        Token.OperatorToken .MAT_COND 2, Token.SymbolToken 16 3,
        Token.RightParenToken 4], none) := by
  decide

/-- Claim C2: for every input, the only error the scan raises is
`LexicalAnalysisFailedError`, raised at the first unrecognised character,
carrying that character and its 1-based column, with nothing scanned past
it; in particular `"A#B"` fails reporting column 2 and character `#`. -/
theorem claim_c2 :
    (∀ (s : List Char) (e : ScanError), (get_all_tokens s).2 = some e →
      ∃ k c, e = .lexicalAnalysisFailed (k + 1) c ∧ s[k]? = some c ∧
        recognizedChar c = false ∧
        ∀ j d, j < k → s[j]? = some d → recognizedChar d = true) ∧
    get_all_tokens ['A', '#', 'B'] =
      ([Token.SymbolToken 0 0], some (.lexicalAnalysisFailed 2 '#')) := by
  constructor
  · intro s e he
    rcases aux_err s.length s 0 (le_refl _) with ⟨h2, _⟩ |
      ⟨k, c, hk, hc, hbef, herr⟩
    · simp only [get_all_tokens] at he
      rw [h2] at he
      exact absurd he (by simp)
    · refine ⟨k, c, ?_, hk, hc, hbef⟩
      simp only [get_all_tokens] at he
      simp only [Nat.zero_add] at herr
      have h5 := herr.symm.trans he
      simp only [Option.some.injEq] at h5
      exact h5.symm
  · decide

/-- Witness for claim C2 at the input `"A#B"`. -/
theorem claim_c2_witness :
    ∃ k c, ScanError.lexicalAnalysisFailed 2 '#' =
        .lexicalAnalysisFailed (k + 1) c ∧
      (['A', '#', 'B'] : List Char)[k]? = some c ∧
      recognizedChar c = false ∧
      ∀ j d, j < k → (['A', '#', 'B'] : List Char)[j]? = some d →
        recognizedChar d = true :=
  claim_c2.1 ['A', '#', 'B'] (.lexicalAnalysisFailed 2 '#') (by decide)

/-- Claim C3: every character that is not an ASCII letter, not one of the
five operator input glyphs, not a parenthesis and not whitespace makes the
scan fail with `LexicalAnalysisFailedError` — at that character, or at an
earlier character that is itself unrecognised. -/
theorem claim_c3 :
    ∀ (s : List Char) (k : Nat) (c : Char), s[k]? = some c →
      isSymbolChar c = false →
      (∀ op : Operator, op.value.input_form ≠ [c]) →
      c ≠ '(' → c ≠ ')' → pyIsSpace c = false →
      ∃ j d, j ≤ k ∧ s[j]? = some d ∧ recognizedChar d = false ∧
        (get_all_tokens s).2 = some (.lexicalAnalysisFailed (j + 1) d) := by
  intro s k c hk hsym hop hlp hrp hws
  have hrec : recognizedChar c = false := by
    simp only [recognizedChar, Bool.or_eq_false_iff]
    refine ⟨⟨⟨hsym, ?_⟩, ?_⟩, hws⟩
    · cases hoc : isOperatorChar c with
      | false => rfl
      | true =>
        rcases isOperatorChar_iff.mp hoc with rfl | rfl | rfl | rfl | rfl
        · exact ((hop Operator.NEG) (by decide)).elim
        · exact ((hop Operator.CONJ) (by decide)).elim
        · exact ((hop Operator.DISJ) (by decide)).elim
        · exact ((hop Operator.MAT_COND) (by decide)).elim
        · exact ((hop Operator.BICOND) (by decide)).elim
    · cases hpc : isParenChar c with
      | false => rfl
      | true =>
        rcases isParenChar_iff.mp hpc with rfl | rfl
        · exact (hlp rfl).elim
        · exact (hrp rfl).elim
  rcases aux_err s.length s 0 (le_refl _) with ⟨_, hall⟩ |
    ⟨j, d, hj, hd, hbef, herr⟩
  · obtain ⟨hlt, hget⟩ := List.getElem?_eq_some_iff.mp hk
    have hmem : c ∈ s := hget ▸ List.getElem_mem hlt
    rw [hall c hmem] at hrec
    exact absurd hrec (by simp)
  · refine ⟨j, d, ?_, hj, hd, ?_⟩
    · by_contra hcon
      push_neg at hcon
      have hkr := hbef k c hcon hk
      rw [hrec] at hkr
      exact absurd hkr (by simp)
    · simp only [get_all_tokens]
      simpa using herr

/-- Witness for claim C3 at the digit `5`. -/
theorem claim_c3_witness :
    ∃ j d, j ≤ 0 ∧ (['5'] : List Char)[j]? = some d ∧
      recognizedChar d = false ∧
      (get_all_tokens ['5']).2 = some (.lexicalAnalysisFailed (j + 1) d) :=
  claim_c3 ['5'] 0 '5' (by decide) (by decide)
    (fun op => by cases op <;> decide) (by decide) (by decide) (by decide)

/-- Claim C4 (code bug): `Symbol.from_letter` does not keep the documented
`[0, 25]` range.  On the single alphabetic character `é` (U+00E9) the
`str.isalpha` guard passes, `'é'.upper() = 'É'` is not found in
`string.ascii_uppercase`, and `find` returns -1, so the call succeeds with
the out-of-range value `Symbol(-1)` instead of rejecting the input or
producing a value in `[0, 25]`. -/
theorem claim_c4_bug :
    Symbol.from_letter ['é'] = .ok (-1) ∧
      ¬(0 ≤ (-1 : Int) ∧ (-1 : Int) ≤ 25) := by
  decide

/-- Claim C5 (code bug): on the single non-ASCII letter `ø` (U+00F8),
`Symbol.from_letter` does not fail — it returns `Symbol(-1)` — and the
rendering round trip collapses to `Z` (Python's negative indexing into
`ascii_uppercase`) rather than `'ø'.upper() = 'Ø'`. -/
theorem claim_c5_bug :
    Symbol.from_letter ['ø'] = .ok (-1) ∧
    (∀ e : PyError, Symbol.from_letter ['ø'] ≠ .error e) ∧
    Symbol.toLetter (-1) = some 'Z' ∧
    pyUpperStr ['ø'] = ['Ø'] ∧
    ('Z' : Char) ≠ 'Ø' := by
  refine ⟨by decide, ?_, by decide, by decide, by decide⟩
  intro e h
  rw [show Symbol.from_letter ['ø'] = .ok (-1) from by decide] at h
  exact Except.noConfusion h

/-- Claim C6: the catalogue is exactly the five stated operators with the
stated input glyph, display glyph and priority; `Operator.from_input_form`
returns the matching member on each of the five glyphs and fails with
`ValueError` (the spec's `UnknownOperatorError`) on every other input. -/
theorem claim_c6 :
    Operator.members = [.NEG, .CONJ, .DISJ, .MAT_COND, .BICOND] ∧
    Operator.members.length = 5 ∧
    (∀ op : Operator, op ∈ Operator.members) ∧
    Operator.NEG.value = ⟨['!'], ['¬'], 100⟩ ∧
    Operator.CONJ.value = ⟨['&'], ['∧'], 90⟩ ∧
    Operator.DISJ.value = ⟨['|'], ['∨'], 80⟩ ∧
    Operator.MAT_COND.value = ⟨['~'], ['→'], 70⟩ ∧
    Operator.BICOND.value = ⟨['='], ['↔'], 60⟩ ∧
    (∀ op : Operator,
      Operator.from_input_form op.value.input_form = .ok op) ∧
    (∀ form : List Char, (∀ op : Operator, op.value.input_form ≠ form) →
      ∃ msg, Operator.from_input_form form = .error (.valueError msg)) := by
  refine ⟨rfl, rfl, ?_, rfl, rfl, rfl, rfl, rfl, ?_, ?_⟩
  · intro op
    cases op <;> decide
  · intro op
    cases op <;> decide
  · intro form h
    exact ⟨_, from_input_form_no_glyph h⟩

/-- Witness for claim C6 at the unknown glyph `#`. -/
theorem claim_c6_witness :
    ∃ msg, Operator.from_input_form ['#'] = .error (.valueError msg) :=
  claim_c6.2.2.2.2.2.2.2.2.2 ['#'] (fun op => by cases op <;> decide)

/-- Claim C7: whitespace runs are consumed silently — no token is ever
emitted at a whitespace position — and surrounding token positions are
offsets into the original input: `"A  B"` yields
`[SymbolToken(A,0), SymbolToken(B,3)]` and `""` yields an empty
sequence. -/
theorem claim_c7 :
    get_all_tokens ['A', ' ', ' ', 'B'] =
      ([Token.SymbolToken 0 0, Token.SymbolToken 1 3], none) ∧
    get_all_tokens [] = ([], none) ∧
    (∀ (s : List Char), ∀ t ∈ (get_all_tokens s).1,
      ∃ c, s[t.position]? = some c ∧ pyIsSpace c = false) := by
  refine ⟨by decide, by decide, ?_⟩
  intro s t ht
  obtain ⟨k, c, hk, hpos, hm⟩ := aux_tokens s.length s 0 (le_refl _) t ht
  refine ⟨c, ?_, not_space_of_tokenMatches hm⟩
  rw [hpos]
  simpa using hk

/-- Witness for claim C7 on the input `"A"`. -/
theorem claim_c7_witness :
    ∃ c, (['A'] : List Char)[(Token.SymbolToken 0 0).position]? = some c ∧
      pyIsSpace c = false :=
  claim_c7.2.2 ['A'] (Token.SymbolToken 0 0) (by decide)

/-- Claim C8: the generator is lazy — when the scan fails at offset `k`
(reported column `k + 1`), the tokens yielded before the error are exactly
the tokens of the clean scan of the first `k` characters, in order, and
that clean scan of the prefix raises no error. -/
theorem claim_c8 (s : List Char) (k : Nat) (c : Char)
    (h : (get_all_tokens s).2 = some (.lexicalAnalysisFailed (k + 1) c)) :
    s[k]? = some c ∧ recognizedChar c = false ∧
    (get_all_tokens s).1 = (get_all_tokens (s.take k)).1 ∧
    (get_all_tokens (s.take k)).2 = none := by
  have h0 : (get_all_tokens_aux s.length s 0).2 =
      some (.lexicalAnalysisFailed (0 + k + 1) c) := by
    rw [show (0 : Nat) + k + 1 = k + 1 from by omega]
    exact h
  have hfirst : s[k]? = some c ∧ recognizedChar c = false := by
    rcases aux_err s.length s 0 (le_refl _) with ⟨h2, _⟩ |
      ⟨k2, c2, hk2, hc2, _, herr⟩
    · rw [h2] at h0
      exact absurd h0 (by simp)
    · have hco := herr.symm.trans h0
      simp only [Option.some.injEq,
        ScanError.lexicalAnalysisFailed.injEq] at hco
      obtain ⟨hcol, rfl⟩ := hco
      have hkk : k2 = k := by omega
      rw [hkk] at hk2
      exact ⟨hk2, hc2⟩
  obtain ⟨htok, hnone⟩ := aux_error_take s.length s 0 k c (le_refl _) h0
  have hfl : get_all_tokens_aux s.length (s.take k) 0 =
      get_all_tokens_aux (s.take k).length (s.take k) 0 := by
    refine aux_fuel s.length (s.take k).length (s.take k) 0 ?_ (le_refl _)
    rw [List.length_take]
    omega
  rw [hfl] at htok hnone
  exact ⟨hfirst.1, hfirst.2, htok, hnone⟩

/-- Witness for claim C8 at the input `"A#"`. -/
theorem claim_c8_witness :
    (['A', '#'] : List Char)[1]? = some '#' ∧
    recognizedChar '#' = false ∧
    (get_all_tokens ['A', '#']).1 =
      (get_all_tokens ((['A', '#'] : List Char).take 1)).1 ∧
    (get_all_tokens ((['A', '#'] : List Char).take 1)).2 = none :=
  claim_c8 ['A', '#'] 1 '#' (by decide)

/-- Claim C9: the `SYMBOL` branch only ever hands a single ASCII letter to
`Symbol.from_letter`, and on those it always succeeds; consequently no
`ValueError` (the spec's `InvalidSymbolError`) and no `RuntimeError` from
the internal-invariant branches ever escapes the scan — the only error it
can raise is `LexicalAnalysisFailedError`. -/
theorem claim_c9 :
    (∀ c : Char, isSymbolChar c = true →
      ∃ v, Symbol.from_letter [c] = .ok v) ∧
    (∀ s : List Char, (get_all_tokens s).2 = none ∨
      ∃ col ch, (get_all_tokens s).2 =
        some (.lexicalAnalysisFailed col ch)) := by
  constructor
  · intro c h
    exact ⟨_, from_letter_isSymbolChar h⟩
  · intro s
    rcases aux_err s.length s 0 (le_refl _) with ⟨h2, _⟩ |
      ⟨k, c, _, _, _, herr⟩
    · exact Or.inl h2
    · exact Or.inr ⟨0 + k + 1, c, herr⟩

/-- Witness for claim C9 at the letter `A`. -/
theorem claim_c9_witness :
    ∃ v, Symbol.from_letter ['A'] = .ok v :=
  claim_c9.1 'A' (by decide)

/-- Claim C10: on an input that scans without error, every emitted token's
position is the 0-based offset of the character it was scanned from in the
original input, the positions are strictly increasing across the sequence,
and each position is below the input length. -/
theorem claim_c10 (s : List Char)
    (_h : (get_all_tokens s).2 = none) :
    (∀ t ∈ (get_all_tokens s).1,
      ∃ c, s[t.position]? = some c ∧ tokenMatches c t) ∧
    ((get_all_tokens s).1.map Token.position).Pairwise (· < ·) ∧
    (∀ t ∈ (get_all_tokens s).1, t.position < s.length) := by
  refine ⟨?_, aux_pairwise s.length s 0 (le_refl _), ?_⟩
  · intro t ht
    obtain ⟨k, c, hk, hpos, hm⟩ := aux_tokens s.length s 0 (le_refl _) t ht
    refine ⟨c, ?_, hm⟩
    rw [hpos]
    simpa using hk
  · intro t ht
    obtain ⟨k, c, hk, hpos, _⟩ := aux_tokens s.length s 0 (le_refl _) t ht
    obtain ⟨hlt, _⟩ := List.getElem?_eq_some_iff.mp hk
    omega

/-- Witness for claim C10 at the input `"A&B"`. -/
theorem claim_c10_witness :
    (∀ t ∈ (get_all_tokens ['A', '&', 'B']).1,
      ∃ c, (['A', '&', 'B'] : List Char)[t.position]? = some c ∧
        tokenMatches c t) ∧
    ((get_all_tokens ['A', '&', 'B']).1.map Token.position).Pairwise
      (· < ·) ∧
    (∀ t ∈ (get_all_tokens ['A', '&', 'B']).1,
      t.position < (['A', '&', 'B'] : List Char).length) :=
  claim_c10 ['A', '&', 'B'] (by decide)
